import Mathlib

/-!
Verification development for the RAGinda hybrid retrieval & result fusion
engine (`src/product_finder/core_logic/`).  Python strings are modelled as
`List Char`, Python floats as `ℚ` (exact arithmetic), Python dicts for
product records as Lean structures with `Option` fields for keys that are
only sometimes present.  External collaborators (the sentence-transformer
embedding models, the FAISS index, the Gemini classifier) are modelled as
inputs: the embedding/cosine scores and the (distance, row id) batches they
return are parameters of the definitions, exactly at the call boundary the
source uses them.
-/

namespace RAGinda

/-- Python `str.lower()` on our character-list model of strings. -/
def lowerStr (s : List Char) : List Char := s.map Char.toLower

/-- Does `b` start with `a`?  Auxiliary for the substring test. -/
def strStarts : List Char → List Char → Bool
  | [], _ => true
  | _ :: _, [] => false
  | a :: as, b :: bs => a == b && strStarts as bs

/-- Python substring test `a in b` (for strings): `a` occurs contiguously
in `b`.  Mirrors that the empty string is a substring of everything. -/
def strIn (a : List Char) : List Char → Bool
  | [] => a.isEmpty
  | c :: cs => strStarts a (c :: cs) || strIn a cs

/-- Worker for `pySplit`: `cur` is the current word, reversed. -/
def pySplitGo : List Char → List Char → List (List Char)
  | cur, [] => if cur.isEmpty then [] else [cur.reverse]
  | cur, c :: cs =>
    if c.isWhitespace then
      if cur.isEmpty then pySplitGo [] cs else cur.reverse :: pySplitGo [] cs
    else pySplitGo (c :: cur) cs

/-- Python `str.split()` with no argument: split on runs of whitespace,
producing no empty words.  Mirrors `query.lower().split()`. -/
def pySplit (s : List Char) : List (List Char) := pySplitGo [] s

/-- Python slice `xs[-k:]` (the last `k` elements): for `k = 0` Python's
`xs[-0:]` is `xs[0:]`, i.e. the whole list. -/
def pyLastK (xs : List α) (k : Nat) : List α :=
  if k = 0 then xs else xs.drop (xs.length - k)

/-- `np.min` over a nonempty batch (head used as seed). -/
def listMin : List ℚ → ℚ
  | [] => 0
  | x :: xs => xs.foldl min x

/-- `np.max` over a nonempty batch (head used as seed). -/
def listMax : List ℚ → ℚ
  | [] => 0
  | x :: xs => xs.foldl max x

/-- Round-half-to-even to an integer, as Python's builtin `round` does. -/
def rhe (q : ℚ) : ℤ :=
  if q - ⌊q⌋ < 1/2 then ⌊q⌋
  else if 1/2 < q - ⌊q⌋ then ⌊q⌋ + 1
  else if Even ⌊q⌋ then ⌊q⌋ else ⌊q⌋ + 1

/-- Python `round(x, 4)`. -/
def round4 (q : ℚ) : ℚ := (rhe (q * 10000) : ℚ) / 10000

/-!
## Stable sorting

`sortStable lt` is a stable insertion sort: `insStable` keeps an existing
element `b` ahead of the inserted `a` exactly while `lt b a` holds, so an
element is placed *before* every element it ties with that came later in
the input.  With `lt b a := key b < key a` this is extensionally the stable
ascending sort `np.argsort` performs (numpy's sort is stable on the small
index ranges used here), and with `lt b a := key a < key b` it is the
stable descending sort of Python's `list.sort(key=…, reverse=True)`.
-/

def insStable (lt : α → α → Bool) (a : α) : List α → List α
  | [] => [a]
  | b :: bs => if lt b a then b :: insStable lt a bs else a :: b :: bs

def sortStable (lt : α → α → Bool) : List α → List α
  | [] => []
  | a :: as => insStable lt a (sortStable lt as)

/-!
## Configuration constants (`src/product_finder/config.py`)

The decimal literals of the source are written as exact rationals:
0.6 = 3/5, 0.4 = 2/5, 0.2 = 1/5, 0.3 = 3/10, 1.2 = 6/5, 0.1 = 1/10.
-/

namespace config

def RETRIEVER_TOP_K : Nat := 3
def HYBRID_SEMANTIC_WEIGHT : ℚ := 3/5
def HYBRID_KEYWORD_WEIGHT : ℚ := 2/5
def HYBRID_SCORE_THRESHOLD : ℚ := 1/5
def SEARCH_TOP_K : Nat := 10
def SIMILARITY_THRESHOLD : ℚ := 3/10
def CATEGORY_BOOST_FACTOR : ℚ := 6/5
def TERM_MATCH_BOOST : ℚ := 1/10
def MAX_SEARCH_EXPANSION : Nat := 3

end config

/-!
## HybridRetriever (`src/product_finder/core_logic/retriever.py`)

`__init__` stores one entry per subcategory, in catalog insertion order,
with the keywords lowercased.  The sentence-transformer model and the
cosine-similarity computation are external collaborators; the per-entry
semantic score vector `semantic_scores` they produce for the query is
passed as the function `sem : Nat → ℚ` (entry index → cosine score).
-/

/-- One element of `self.all_subcategories` (keywords already lowercased,
the Python set modelled as a list — only `any` membership is used). -/
structure SubcatEntry where
  category_name : List Char
  subcategory_name : List Char
  subcategory_url : List Char
  keywords : List (List Char)
deriving DecidableEq, Inhabited

/-- The keyword-stripped dict returned by `HybridRetriever.search`
(`{k: v for k, v in res.items() if k != 'keywords'}`). -/
structure RetrievalCandidateOut where
  category_name : List Char
  subcategory_name : List Char
  subcategory_url : List Char
deriving DecidableEq, Inhabited

namespace HybridRetriever

/-- `keyword_scores[i]`: 1.0 when any keyword of the entry occurs in the
lowercased query (the `break` short-circuit has no observable effect). -/
def keywordScore (e : SubcatEntry) (queryLower : List Char) : ℚ :=
  if e.keywords.any (fun kw => strIn kw queryLower) then 1 else 0

/-- `hybrid_scores[i] = semantic * 0.6 + keyword * 0.4`. -/
def hybridScore (entries : List SubcatEntry) (sem : Nat → ℚ)
    (queryLower : List Char) (i : Nat) : ℚ :=
  sem i * config.HYBRID_SEMANTIC_WEIGHT +
    keywordScore (entries.getD i default) queryLower * config.HYBRID_KEYWORD_WEIGHT

/-- `np.argsort(hybrid_scores)[-top_k:][::-1]` followed by the threshold
filter of the final list comprehension, as entry indices.  `np.argsort`
is the stable ascending argsort (`sortStable` with `score j < score i`
keeping `j` ahead). -/
def searchIdx (entries : List SubcatEntry) (sem : Nat → ℚ)
    (user_query : List Char) (top_k : Nat) : List Nat :=
  if user_query.isEmpty then []
  else
    let score := hybridScore entries sem (lowerStr user_query)
    let order :=
      (pyLastK (sortStable (fun j i => decide (score j < score i))
        (List.range entries.length)) top_k).reverse
    order.filter (fun i => decide (score i > config.HYBRID_SCORE_THRESHOLD))

/-- `HybridRetriever.search`: the selected entries with `keywords`
stripped. -/
def search (entries : List SubcatEntry) (sem : Nat → ℚ)
    (user_query : List Char) (top_k : Nat) : List RetrievalCandidateOut :=
  (searchIdx entries sem user_query top_k).map (fun i =>
    let e := entries.getD i default
    ⟨e.category_name, e.subcategory_name, e.subcategory_url⟩)

end HybridRetriever

/-!
## SearchService (`src/product_finder/core_logic/search_service.py`)

The embedding call and `faiss_index.search` are external: the batch of
`(distance, row id)` pairs they return for the query (row ids as signed
integers, FAISS uses -1 for missing neighbours) is the input `pairs`.
`Except Unit` models an uncaught Python exception aborting the request.
-/

/-- A product metadata dict as loaded for `self.product_metadata`. -/
structure Product where
  title : List Char
  category : List Char
  link : List Char
  price : ℚ
deriving DecidableEq, Inhabited

/-- The `.copy()` of a metadata dict with the per-query annotation keys.
`similarity_score` / `search_rank` are always written before the dict
becomes a candidate; `category_match` / `final_score` are written later
(in fusion), so they are `Option` — `none` is an absent dict key. -/
structure Cand where
  title : List Char
  category : List Char
  link : List Char
  price : ℚ
  similarity_score : ℚ
  search_rank : Nat
  category_match : Option Bool
  final_score : Option ℚ
deriving DecidableEq, Inhabited

namespace SearchService

/-- The candidate built at lines 82–86: the copied product annotated with
`round(similarity, 4)` and rank `i + 1`. -/
def mkCand (p : Product) (sim : ℚ) (rank : Nat) : Cand :=
  ⟨p.title, p.category, p.link, p.price, round4 sim, rank, none, none⟩

/-- Line 83: `1.0 - ((dist - min_dist) / (max_dist - min_dist)) if
max_dist > min_dist else 1.0`. -/
def simAt (minD maxD d : ℚ) : ℚ :=
  if minD < maxD then 1 - (d - minD) / (maxD - minD) else 1

/-- The `for i, (dist, idx) in enumerate(zip(distances[0], indices[0]))`
loop.  A row id `idx ≥ 0` that is out of metadata range makes
`self.product_metadata[idx]` raise IndexError, aborting the request. -/
def faissLoop (meta : List Product) (minD maxD : ℚ) :
    List (Nat × ℚ × Int) → Except Unit (List Cand)
  | [] => .ok []
  | (i, d, idx) :: rest =>
    if 0 ≤ idx then
      match meta[idx.toNat]? with
      | none => .error ()
      | some p =>
        if config.SIMILARITY_THRESHOLD ≤ simAt minD maxD d then
          match faissLoop meta minD maxD rest with
          | .error e => .error e
          | .ok cs => .ok (mkCand p (simAt minD maxD d) (i + 1) :: cs)
        else faissLoop meta minD maxD rest
    else faissLoop meta minD maxD rest

/-- `SearchService._search_faiss_index`, from the point where the batch of
`(distance, row id)` pairs has been returned by the index. -/
def search_faiss_index (meta : List Product) (pairs : List (ℚ × Int)) :
    Except Unit (List Cand) :=
  match pairs with
  | [] => .ok []
  | _ =>
    let ds := pairs.map Prod.fst
    faissLoop meta (listMin ds) (listMax ds) pairs.enum

end SearchService

/-- The duck-typed shape of what `find_category_with_gemini_rag` returns:
a JSON list, a dict that has the `subcategory_name` key (carrying the
chosen candidate), a dict without it (the `{"error": ...}` results), or
any other value. -/
inductive LLMResp where
  | jlist (xs : List LLMResp)
  | jdictCat (c : RetrievalCandidateOut)
  | jdictOther
  | jother
deriving Inhabited

namespace SearchService

/-- `SearchService._find_best_category`, from the point where the hybrid
retriever's candidates and the classifier response are available.
`apiKeySet` is `config.GEMINI_API_KEY` truthiness. -/
def _find_best_category (retrieved : List RetrievalCandidateOut)
    (apiKeySet : Bool) (llm : LLMResp) : Option RetrievalCandidateOut :=
  match retrieved with
  | [] => none
  | top :: _ =>
    if !apiKeySet then some top
    else
      let final_choice :=
        match llm with
        | .jlist (x :: _) => x
        | v => v
      match final_choice with
      | .jdictCat c => some c
      | _ => some top

/-- Line 120: `selected_category['subcategory_name'].lower() if
selected_category else ""`. -/
def catNameOf : Option RetrievalCandidateOut → List Char
  | some c => lowerStr c.subcategory_name
  | none => []

/-- The per-candidate body of the `for res in vector_results` loop of
`_fuse_and_rerank_results` (lines 123–137): category boost, term-match
boost, clamp.  `category_name` is already lowercased (line 120); a
candidate that misses the category test keeps `category_match` absent —
the code has no `else` branch writing `False`. -/
def boostOne (category_name : List Char) (query_terms : List (List Char))
    (res : Cand) : Cand :=
  let score := res.similarity_score
  let boosted : ℚ × Option Bool :=
    if category_name ≠ [] ∧ strIn category_name (lowerStr res.category) then
      (score * config.CATEGORY_BOOST_FACTOR, some true)
    else (score, res.category_match)
  let term_matches :=
    (query_terms.filter (fun term => strIn term (lowerStr res.title))).length
  let final : ℚ :=
    if 0 < term_matches then
      boosted.1 * (1 + (term_matches : ℚ) * config.TERM_MATCH_BOOST)
    else boosted.1
  { res with category_match := boosted.2, final_score := some (min 1 final) }

/-- The term-match multiplier applied at lines 132–134: `1 +
term_matches * TERM_MATCH_BOOST` when any query term occurs in the
lowercased title, `1` (no multiplication) otherwise. -/
def termFactor (query_terms : List (List Char)) (r : Cand) : ℚ :=
  if 0 < (query_terms.filter (fun term => strIn term (lowerStr r.title))).length then
    1 + ((query_terms.filter (fun term => strIn term (lowerStr r.title))).length : ℚ) *
      config.TERM_MATCH_BOOST
  else 1

/-- Lines 119–139 of `_fuse_and_rerank_results`: boost every candidate,
then `enhanced_results.sort(key=..., reverse=True)` — a stable descending
sort on `x.get('final_score', 0)`. -/
def fuseSort (vector_results : List Cand)
    (selected_category : Option RetrievalCandidateOut) (query : List Char) :
    List Cand :=
  sortStable (fun b a => decide (a.final_score.getD 0 < b.final_score.getD 0))
    (vector_results.map
      (boostOne (catNameOf selected_category) (pySplit (lowerStr query))))

/-- The first pass of `_diversify_results`: emit a candidate when its
category has not been seen. -/
def diversifyPass (seen : List (List Char)) : List Cand → List Cand
  | [] => []
  | r :: rs =>
    if r.category ∈ seen then diversifyPass seen rs
    else r :: diversifyPass (r.category :: seen) rs

/-- The second pass: `for res in results: if res not in diversified:
diversified.append(res)` — membership is Python dict *value* equality and
the list grows while iterating. -/
def fillRemaining (diversified : List Cand) : List Cand → List Cand
  | [] => diversified
  | r :: rs =>
    if r ∈ diversified then fillRemaining diversified rs
    else fillRemaining (diversified ++ [r]) rs

/-- `SearchService._diversify_results`. -/
def _diversify_results (results : List Cand) : List Cand :=
  if results.length ≤ 3 then results
  else fillRemaining (diversifyPass [] results) results

/-- `SearchService._fuse_and_rerank_results` (it ends by calling
`self._diversify_results(enhanced_results)`). -/
def _fuse_and_rerank_results (vector_results : List Cand)
    (selected_category : Option RetrievalCandidateOut) (query : List Char) :
    List Cand :=
  _diversify_results (fuseSort vector_results selected_category query)

/-- The value returned by `SearchService.search`. -/
structure SearchResultM where
  selected_category : Option RetrievalCandidateOut
  products : List Cand
deriving DecidableEq

/-- `SearchService.search`: the two branches are awaited with
`asyncio.gather` (join), then fusion runs and the product list is cut to
`max_results`.  An exception in the vector branch propagates. -/
def search (meta : List Product) (pairs : List (ℚ × Int))
    (retrieved : List RetrievalCandidateOut) (apiKeySet : Bool)
    (llm : LLMResp) (query : List Char) (max_results : Nat) :
    Except Unit SearchResultM :=
  let selected := _find_best_category retrieved apiKeySet llm
  match search_faiss_index meta pairs with
  | .error e => .error e
  | .ok vector_results =>
    .ok ⟨selected,
      (_fuse_and_rerank_results vector_results selected query).take max_results⟩

end SearchService

/-!
## Store-level model of the same pipeline

For the frame property (shared state unmutated by a query) the value-level
model above is not informative, so the same source lines are modelled once
more with Python dict *identity* made explicit: a heap of dict objects,
`self.product_metadata` as a list of heap ids, `"".copy()` as allocation of
a fresh id, and every dict-key assignment of the fusion loop as a heap
write at a candidate's id.  Apart from this explicit aliasing the
definitions mirror the same code as the value-level ones.
-/

/-- A dict object on the heap: all per-query annotation keys optional
(metadata dicts never carry them). -/
structure HDict where
  title : List Char
  category : List Char
  link : List Char
  price : ℚ
  similarity_score : Option ℚ
  search_rank : Option Nat
  category_match : Option Bool
  final_score : Option ℚ
deriving DecidableEq, Inhabited

/-- The heap of dict objects, addressed by position. -/
abbrev Heap := List HDict

namespace StoreModel

/-- `_search_faiss_index`'s loop with explicit allocation:
`self.product_metadata[idx]` is an id lookup plus a dereference, and
`.copy()` plus the two key assignments allocate the annotated dict at a
fresh id (`heap.length`). -/
def faissLoopSt (heap : Heap) (metaIds : List Nat) (minD maxD : ℚ) :
    List (Nat × ℚ × Int) → Except Unit (List Nat × Heap)
  | [] => .ok ([], heap)
  | (i, d, idx) :: rest =>
    if 0 ≤ idx then
      match metaIds[idx.toNat]? with
      | none => .error ()
      | some mid =>
        match heap[mid]? with
        | none => .error ()
        | some p =>
          if config.SIMILARITY_THRESHOLD ≤ SearchService.simAt minD maxD d then
            match
              faissLoopSt
                (heap ++ [{ p with
                  similarity_score := some (round4 (SearchService.simAt minD maxD d)),
                  search_rank := some (i + 1) }])
                metaIds minD maxD rest with
            | .error e => .error e
            | .ok (cids, h') => .ok (heap.length :: cids, h')
          else faissLoopSt heap metaIds minD maxD rest
    else faissLoopSt heap metaIds minD maxD rest

/-- One iteration of the fusion loop as a heap write at the candidate's
id: the `res['category_match'] = True` and `res['final_score'] = ...`
assignments of lines 129/136. -/
def writeBoost (category_name : List Char) (query_terms : List (List Char))
    (heap : Heap) (cid : Nat) : Heap :=
  match heap[cid]? with
  | none => heap
  | some res =>
    let score := res.similarity_score.getD 0
    let boosted : ℚ × Option Bool :=
      if category_name ≠ [] ∧ strIn category_name (lowerStr res.category) then
        (score * config.CATEGORY_BOOST_FACTOR, some true)
      else (score, res.category_match)
    let term_matches :=
      (query_terms.filter (fun term => strIn term (lowerStr res.title))).length
    let final : ℚ :=
      if 0 < term_matches then
        boosted.1 * (1 + (term_matches : ℚ) * config.TERM_MATCH_BOOST)
      else boosted.1
    heap.set cid
      { res with category_match := boosted.2, final_score := some (min 1 final) }

/-- The whole `for res in vector_results` loop of the fusion step. -/
def fuseWrites (category_name : List Char) (query_terms : List (List Char))
    (heap : Heap) : List Nat → Heap
  | [] => heap
  | cid :: rest =>
    fuseWrites category_name query_terms
      (writeBoost category_name query_terms heap cid) rest

/-- Sort key of line 139 read through the heap. -/
def keyH (heap : Heap) (cid : Nat) : ℚ :=
  match heap[cid]? with
  | some r => r.final_score.getD 0
  | none => 0

/-- Category field read through the heap. -/
def catH (heap : Heap) (cid : Nat) : List Char :=
  match heap[cid]? with
  | some r => r.category
  | none => []

/-- First diversification pass on candidate ids (reads only). -/
def diversifyPassSt (heap : Heap) (seen : List (List Char)) :
    List Nat → List Nat
  | [] => []
  | r :: rs =>
    if catH heap r ∈ seen then diversifyPassSt heap seen rs
    else r :: diversifyPassSt heap (catH heap r :: seen) rs

/-- Second diversification pass; `res not in diversified` compares dict
values, so ids are compared through the heap. -/
def fillRemainingSt (heap : Heap) (diversified : List Nat) :
    List Nat → List Nat
  | [] => diversified
  | r :: rs =>
    if diversified.any (fun x => decide (heap[x]? = heap[r]?)) then
      fillRemainingSt heap diversified rs
    else fillRemainingSt heap (diversified ++ [r]) rs

/-- `_diversify_results` on candidate ids (reads only). -/
def diversifySt (heap : Heap) (cids : List Nat) : List Nat :=
  if cids.length ≤ 3 then cids
  else fillRemainingSt heap (diversifyPassSt heap [] cids) cids

/-- The shared post-initialization state a request can reach: the dict
heap, `self.product_metadata` as ids into it, and the retriever's
subcategory index (which the retriever only reads — its `search` builds
fresh dicts with a comprehension). -/
structure ServiceState where
  heap : Heap
  product_metadata : List Nat
  subcat_index : List SubcatEntry
deriving DecidableEq

/-- `SearchService.search` at store level: returns the response (selected
category and the product dict values, truncated) and the post-request
state. -/
def searchSt (st : ServiceState) (pairs : List (ℚ × Int))
    (retrieved : List RetrievalCandidateOut) (apiKeySet : Bool)
    (llm : LLMResp) (query : List Char) (max_results : Nat) :
    Except Unit ((Option RetrievalCandidateOut × List HDict) × ServiceState) :=
  let selected := SearchService._find_best_category retrieved apiKeySet llm
  match pairs with
  | [] => .ok ((selected, []), st)
  | _ :: _ =>
    let ds := pairs.map Prod.fst
    match faissLoopSt st.heap st.product_metadata (listMin ds) (listMax ds)
        pairs.enum with
    | .error e => .error e
    | .ok (cids, h1) =>
      let category_name :=
        match selected with
        | some c => lowerStr c.subcategory_name
        | none => []
      let query_terms := pySplit (lowerStr query)
      let h2 := fuseWrites category_name query_terms h1 cids
      let sorted :=
        sortStable (fun b a => decide (keyH h2 a < keyH h2 b)) cids
      let final_ids := (diversifySt h2 sorted).take max_results
      .ok ((selected, final_ids.filterMap (fun i => h2[i]?)),
        { st with heap := h2 })

end StoreModel

/-!
## Sample data for concrete counterexamples and witnesses
-/

def entA0 : SubcatEntry := ⟨['A'], ['a','0'], ['u','0'], []⟩
def entA1 : SubcatEntry := ⟨['A'], ['a','1'], ['u','1'], []⟩
def catA0 : RetrievalCandidateOut := ⟨['A'], ['a','0'], ['u','0']⟩
def catEmptyName : RetrievalCandidateOut := ⟨['A'], [], ['u','0']⟩
def catPhones : RetrievalCandidateOut := ⟨['A'], ['P','h','o','n','e','s'], ['u','1']⟩
def prodPhone : Product := ⟨['p','h','o','n','e'], ['P','h','o','n','e','s'], ['l','n','k'], 10⟩
def candP : Cand := ⟨['t'], ['P'], ['l'], 1, 1, 1, none, none⟩
def candPhones : Cand :=
  ⟨['t'], ['P','h','o','n','e','s'], ['l'], 1, 1/2, 1, none, none⟩
def candQ : Cand := ⟨['t'], ['Q'], ['l','2'], 1, 1, 2, none, none⟩
def candR : Cand := ⟨['t'], ['R'], ['l','3'], 1, 1, 3, none, none⟩
def candS : Cand := ⟨['t'], ['P'], ['l','4'], 1, 1, 4, none, none⟩
def hd0 : HDict :=
  ⟨['p','h','o','n','e'], ['P','h','o','n','e','s'], ['l','n','k'], 10, none, none, none, none⟩
def hd0b : HDict :=
  ⟨['p','h','o','n','e'], ['P','h','o','n','e','s'], ['l','n','k'], 10, some 1, some 1, none,
    some 1⟩
def candF : Cand :=
  ⟨['p','h','o','n','e'], ['P','h','o','n','e','s'], ['l','n','k'], 10, 1, 1, none, some 1⟩
def stateOne : StoreModel.ServiceState := ⟨[hd0], [0], [entA0]⟩

/-!
## Lemmas and theorems
-/

theorem foldl_min_le_acc (xs : List ℚ) (a : ℚ) : xs.foldl min a ≤ a := by
  induction xs generalizing a with
  | nil => exact le_refl a
  | cons x xs ih =>
    simp only [List.foldl_cons]
    exact le_trans (ih (min a x)) (min_le_left a x)

theorem foldl_min_le_mem {xs : List ℚ} {d : ℚ} (hd : d ∈ xs) (a : ℚ) :
    xs.foldl min a ≤ d := by
  induction xs generalizing a with
  | nil => cases hd
  | cons x xs ih =>
    simp only [List.foldl_cons]
    rcases List.mem_cons.1 hd with h | h
    · subst h
      exact le_trans (foldl_min_le_acc xs (min a d)) (min_le_right a d)
    · exact ih h (min a x)

theorem acc_le_foldl_max (xs : List ℚ) (a : ℚ) : a ≤ xs.foldl max a := by
  induction xs generalizing a with
  | nil => exact le_refl a
  | cons x xs ih =>
    simp only [List.foldl_cons]
    exact le_trans (le_max_left a x) (ih (max a x))

theorem mem_le_foldl_max {xs : List ℚ} {d : ℚ} (hd : d ∈ xs) (a : ℚ) :
    d ≤ xs.foldl max a := by
  induction xs generalizing a with
  | nil => cases hd
  | cons x xs ih =>
    simp only [List.foldl_cons]
    rcases List.mem_cons.1 hd with h | h
    · subst h
      exact le_trans (le_max_right a d) (acc_le_foldl_max xs (max a d))
    · exact ih h (max a x)

theorem listMin_le {l : List ℚ} {d : ℚ} (hd : d ∈ l) : listMin l ≤ d := by
  match l with
  | x :: xs =>
    simp only [listMin]
    rcases List.mem_cons.1 hd with h | h
    · subst h; exact foldl_min_le_acc xs d
    · exact foldl_min_le_mem h x

theorem le_listMax {l : List ℚ} {d : ℚ} (hd : d ∈ l) : d ≤ listMax l := by
  match l with
  | x :: xs =>
    simp only [listMax]
    rcases List.mem_cons.1 hd with h | h
    · subst h; exact acc_le_foldl_max xs d
    · exact mem_le_foldl_max h x

theorem floor_le_rhe (q : ℚ) : ⌊q⌋ ≤ rhe q := by
  unfold rhe
  split_ifs <;> omega

theorem rhe_le_ceil (q : ℚ) : rhe q ≤ ⌈q⌉ := by
  have hfloor : ((⌊q⌋ : ℚ)) < q → ⌊q⌋ + 1 ≤ ⌈q⌉ := by
    intro h
    exact Int.lt_ceil.2 h
  unfold rhe
  split_ifs with h1 h2 h3
  · exact Int.floor_le_ceil q
  · exact hfloor (by linarith)
  · exact Int.floor_le_ceil q
  · exact hfloor (by linarith)

theorem grid_le_round4 {q : ℚ} {k : ℤ} (h : (k : ℚ) / 10000 ≤ q) :
    (k : ℚ) / 10000 ≤ round4 q := by
  unfold round4
  have h1 : (k : ℚ) ≤ q * 10000 := by
    rw [div_le_iff₀ (by norm_num : (0:ℚ) < 10000)] at h
    exact h
  have h2 : k ≤ ⌊q * 10000⌋ := Int.le_floor.2 h1
  have h3 : (k : ℚ) ≤ ((rhe (q * 10000) : ℤ) : ℚ) := by
    exact_mod_cast le_trans h2 (floor_le_rhe _)
  gcongr

theorem round4_le_grid {q : ℚ} {k : ℤ} (h : q ≤ (k : ℚ) / 10000) :
    round4 q ≤ (k : ℚ) / 10000 := by
  unfold round4
  have h1 : q * 10000 ≤ (k : ℚ) := by
    rw [le_div_iff₀ (by norm_num : (0:ℚ) < 10000)] at h
    exact h
  have h2 : ⌈q * 10000⌉ ≤ k := Int.ceil_le.2 h1
  have h3 : ((rhe (q * 10000) : ℤ) : ℚ) ≤ (k : ℚ) := by
    exact_mod_cast le_trans (rhe_le_ceil _) h2
  gcongr

theorem round4_nonneg {q : ℚ} (h : 0 ≤ q) : 0 ≤ round4 q := by
  have h0 : ((0 : ℤ) : ℚ) / 10000 ≤ q := by
    norm_num
    exact h
  have := grid_le_round4 h0
  norm_num at this
  exact this

theorem round4_le_one {q : ℚ} (h : q ≤ 1) : round4 q ≤ 1 := by
  have h0 : q ≤ ((10000 : ℤ) : ℚ) / 10000 := by
    norm_num
    exact h
  have := round4_le_grid h0
  norm_num at this
  exact this

theorem round4_one : round4 1 = 1 := by
  have h1 : round4 1 ≤ 1 := round4_le_one (le_refl 1)
  have h2 : (((10000 : ℤ) : ℚ)) / 10000 ≤ round4 1 := by
    apply grid_le_round4
    norm_num
  norm_num at h2
  linarith

theorem perm_insStable (lt : α → α → Bool) (a : α) (l : List α) :
    (insStable lt a l).Perm (a :: l) := by
  induction l with
  | nil => exact List.Perm.refl _
  | cons b bs ih =>
    simp only [insStable]
    split
    · exact List.Perm.trans (List.Perm.cons b ih) (List.Perm.swap a b bs)
    · exact List.Perm.refl _

theorem perm_sortStable (lt : α → α → Bool) (l : List α) :
    (sortStable lt l).Perm l := by
  induction l with
  | nil => exact List.Perm.refl _
  | cons a as ih =>
    exact List.Perm.trans (perm_insStable lt a (sortStable lt as))
      (List.Perm.cons a ih)

theorem mem_insStable {lt : α → α → Bool} {a x : α} {l : List α}
    (hx : x ∈ insStable lt a l) : x = a ∨ x ∈ l := by
  have := (perm_insStable lt a l).mem_iff.1 hx
  simpa using this

theorem mem_sortStable {lt : α → α → Bool} {x : α} {l : List α}
    (hx : x ∈ sortStable lt l) : x ∈ l :=
  (perm_sortStable lt l).mem_iff.1 hx

theorem pairwise_insStable {lt : α → α → Bool} {R : α → α → Prop} {a : α}
    {t : List α}
    (ht : t.Pairwise R)
    (hC1 : ∀ b ∈ t, lt b a = true → R b a)
    (hC2 : ∀ b ∈ t, lt b a = false → R a b)
    (hC3 : ∀ b ∈ t, ∀ c ∈ t, lt b a = false → R b c → R a c) :
    (insStable lt a t).Pairwise R := by
  induction t with
  | nil => simp [insStable]
  | cons b bs ih =>
    rcases List.pairwise_cons.1 ht with ⟨hb, hbs⟩
    simp only [insStable]
    split
    · rename_i hlt
      refine List.pairwise_cons.2 ⟨?_, ?_⟩
      · intro c hc
        rcases mem_insStable hc with h | h
        · subst h
          exact hC1 b (List.mem_cons_self b bs) hlt
        · exact hb c h
      · refine ih hbs ?_ ?_ ?_
        · intro c hc h
          exact hC1 c (List.mem_cons_of_mem b hc) h
        · intro c hc h
          exact hC2 c (List.mem_cons_of_mem b hc) h
        · intro c hc d hd h hr
          exact hC3 c (List.mem_cons_of_mem b hc) d (List.mem_cons_of_mem b hd) h hr
    · rename_i hlt
      have hlt' : lt b a = false := by
        revert hlt
        cases lt b a <;> simp
      refine List.pairwise_cons.2 ⟨?_, ht⟩
      intro c hc
      rcases List.mem_cons.1 hc with h | h
      · subst h
        exact hC2 c (List.mem_cons_self c bs) hlt'
      · exact hC3 b (List.mem_cons_self b bs) c (List.mem_cons_of_mem b h) hlt' (hb c h)

theorem pairwise_sortStable {lt : α → α → Bool} {R P : α → α → Prop}
    {l : List α}
    (hl : l.Pairwise P)
    (hG1 : ∀ a b, lt b a = true → R b a)
    (hG2 : ∀ a b, P a b → lt b a = false → R a b)
    (hG3 : ∀ a b c, P a b → P a c → lt b a = false → R b c → R a c) :
    (sortStable lt l).Pairwise R := by
  induction l with
  | nil => simp [sortStable]
  | cons a as ih =>
    rcases List.pairwise_cons.1 hl with ⟨ha, has⟩
    simp only [sortStable]
    refine pairwise_insStable (ih has) ?_ ?_ ?_
    · intro b _ h
      exact hG1 a b h
    · intro b hb h
      exact hG2 a b (ha b (mem_sortStable hb)) h
    · intro b hb c hc h hr
      exact hG3 a b c (ha b (mem_sortStable hb)) (ha c (mem_sortStable hc)) h hr

namespace SearchService

theorem faissLoop_ok_mem {meta : List Product} {minD maxD : ℚ} :
    ∀ {l : List (Nat × ℚ × Int)} {cs : List Cand},
    faissLoop meta minD maxD l = .ok cs →
    ∀ c ∈ cs, ∃ i d idx p, (i, d, idx) ∈ l ∧ 0 ≤ idx ∧
      meta[idx.toNat]? = some p ∧
      config.SIMILARITY_THRESHOLD ≤ simAt minD maxD d ∧
      c = mkCand p (simAt minD maxD d) (i + 1) := by
  intro l
  induction l with
  | nil =>
    intro cs h c hc
    simp only [faissLoop, Except.ok.injEq] at h
    subst h
    cases hc
  | cons hd rest ih =>
    intro cs h c hc
    obtain ⟨i, d, idx⟩ := hd
    simp only [faissLoop] at h
    split at h
    · rename_i h0
      split at h
      · simp at h
      · rename_i p hp
        split at h
        · rename_i hθ
          split at h
          · simp at h
          · rename_i cs' hrec
            simp only [Except.ok.injEq] at h
            subst h
            rcases List.mem_cons.1 hc with hceq | hc'
            · exact ⟨i, d, idx, p, List.mem_cons_self _ _, h0, hp, hθ, hceq⟩
            · obtain ⟨i', d', idx', p', hmem, h0', hp', hθ', hceq⟩ :=
                ih hrec c hc'
              exact ⟨i', d', idx', p',
                List.mem_cons_of_mem _ hmem, h0', hp', hθ', hceq⟩
        · rename_i hθ
          obtain ⟨i', d', idx', p', hmem, h0', hp', hθ', hceq⟩ := ih h c hc
          exact ⟨i', d', idx', p',
            List.mem_cons_of_mem _ hmem, h0', hp', hθ', hceq⟩
    · rename_i h0
      obtain ⟨i', d', idx', p', hmem, h0', hp', hθ', hceq⟩ := ih h c hc
      exact ⟨i', d', idx', p',
        List.mem_cons_of_mem _ hmem, h0', hp', hθ', hceq⟩

theorem faissLoop_error_iff {meta : List Product} {minD maxD : ℚ} :
    ∀ {l : List (Nat × ℚ × Int)},
    faissLoop meta minD maxD l = .error () ↔
      ∃ pr ∈ l, 0 ≤ pr.2.2 ∧ meta.length ≤ pr.2.2.toNat := by
  intro l
  induction l with
  | nil =>
    simp [faissLoop]
  | cons hd rest ih =>
    obtain ⟨i, d, idx⟩ := hd
    constructor
    · intro h
      simp only [faissLoop] at h
      split at h
      · rename_i h0
        split at h
        · rename_i hp
          exact ⟨(i, d, idx), List.mem_cons_self _ _, h0,
            List.getElem?_eq_none_iff.1 hp⟩
        · rename_i p hp
          split at h
          · split at h
            · rename_i e hrec
              obtain ⟨pr, hmem, hpr⟩ := ih.1 (by cases e; exact hrec)
              exact ⟨pr, List.mem_cons_of_mem _ hmem, hpr⟩
            · simp at h
          · obtain ⟨pr, hmem, hpr⟩ := ih.1 h
            exact ⟨pr, List.mem_cons_of_mem _ hmem, hpr⟩
      · obtain ⟨pr, hmem, hpr⟩ := ih.1 h
        exact ⟨pr, List.mem_cons_of_mem _ hmem, hpr⟩
    · intro hex
      obtain ⟨pr, hmem, hge, hlen⟩ := hex
      rcases List.mem_cons.1 hmem with heq | hmem'
      · subst heq
        simp only [faissLoop]
        rw [if_pos hge]
        have hnone : meta[idx.toNat]? = none := List.getElem?_eq_none_iff.2 hlen
        rw [hnone]
      · have herr : faissLoop meta minD maxD rest = .error () :=
          ih.2 ⟨pr, hmem', hge, hlen⟩
        simp only [faissLoop]
        split
        · split
          · rfl
          · split
            · rw [herr]
            · exact herr
        · exact herr

theorem faissLoop_ok_rank {meta : List Product} {minD maxD : ℚ} :
    ∀ {l : List (Nat × ℚ × Int)} {cs : List Cand},
    faissLoop meta minD maxD l = .ok cs →
    l.Pairwise (fun a b => a.1 < b.1) →
    cs.Pairwise (fun a b => a.search_rank < b.search_rank) := by
  intro l
  induction l with
  | nil =>
    intro cs h _
    simp only [faissLoop, Except.ok.injEq] at h
    subst h
    exact List.Pairwise.nil
  | cons hd rest ih =>
    intro cs h hl
    obtain ⟨i, d, idx⟩ := hd
    rcases List.pairwise_cons.1 hl with ⟨hfst, hrest⟩
    simp only [faissLoop] at h
    split at h
    · split at h
      · simp at h
      · rename_i p hp
        split at h
        · split at h
          · simp at h
          · rename_i cs' hrec
            simp only [Except.ok.injEq] at h
            subst h
            refine List.pairwise_cons.2 ⟨?_, ih hrec hrest⟩
            intro c hc
            obtain ⟨i', d', idx', p', hmem, _, _, _, hceq⟩ :=
              faissLoop_ok_mem hrec c hc
            have : i < i' := hfst (i', d', idx') hmem
            subst hceq
            simpa [mkCand] using Nat.succ_lt_succ this
        · exact ih h hrest
    · exact ih h hrest

theorem simAt_nonneg {minD maxD d : ℚ} (h1 : minD ≤ d) (h2 : d ≤ maxD) :
    0 ≤ simAt minD maxD d := by
  unfold simAt
  split_ifs with hlt
  · have hpos : 0 < maxD - minD := by linarith
    have : (d - minD) / (maxD - minD) ≤ 1 := by
      rw [div_le_one hpos]
      linarith
    linarith
  · norm_num

theorem simAt_le_one {minD maxD d : ℚ} (h1 : minD ≤ d) :
    simAt minD maxD d ≤ 1 := by
  unfold simAt
  split_ifs with hlt
  · have hpos : 0 < maxD - minD := by linarith
    have : 0 ≤ (d - minD) / (maxD - minD) :=
      div_nonneg (by linarith) (by linarith)
    linarith
  · norm_num

theorem simAt_degenerate {minD maxD d : ℚ} (h : maxD ≤ minD) :
    simAt minD maxD d = 1 := by
  unfold simAt
  rw [if_neg (by linarith)]

/-- Every candidate of `_search_faiss_index` comes from one batch pair:
its stored `similarity_score` is the rounded line-83 normalization of that
pair's distance, the pair's row id is in metadata range, and the
normalization met the 0.3 threshold. -/
theorem sfi_eq_loop {meta : List Product} {pairs : List (ℚ × Int)}
    (hne : pairs ≠ []) :
    search_faiss_index meta pairs =
      faissLoop meta (listMin (pairs.map Prod.fst))
        (listMax (pairs.map Prod.fst)) pairs.enum := by
  match pairs with
  | [] => exact absurd rfl hne
  | q :: qs => rfl

theorem sfi_ok_mem {meta : List Product} {pairs : List (ℚ × Int)}
    {cs : List Cand} (h : search_faiss_index meta pairs = .ok cs) :
    ∀ c ∈ cs, ∃ d idx p, (d, idx) ∈ pairs ∧ 0 ≤ idx ∧
      meta[idx.toNat]? = some p ∧
      config.SIMILARITY_THRESHOLD ≤
        simAt (listMin (pairs.map Prod.fst)) (listMax (pairs.map Prod.fst)) d ∧
      c.similarity_score =
        round4 (simAt (listMin (pairs.map Prod.fst))
          (listMax (pairs.map Prod.fst)) d) := by
  intro c hc
  by_cases hne : pairs = []
  · subst hne
    simp only [search_faiss_index, Except.ok.injEq] at h
    subst h
    cases hc
  · rw [sfi_eq_loop hne] at h
    obtain ⟨i, d, idx, p, hmem, h0, hpm, hθ, hceq⟩ := faissLoop_ok_mem h c hc
    have hdp : (d, idx) ∈ pairs :=
      List.getElem?_mem (List.mk_mem_enum_iff_getElem?.1 hmem)
    subst hceq
    exact ⟨d, idx, p, hdp, h0, hpm, hθ, rfl⟩

/-- The raw vector search fails exactly when the batch holds a
non-negative row id at or beyond the metadata length. -/
theorem sfi_error_iff {meta : List Product} {pairs : List (ℚ × Int)} :
    search_faiss_index meta pairs = .error () ↔
      ∃ pr ∈ pairs, 0 ≤ pr.2 ∧ meta.length ≤ pr.2.toNat := by
  by_cases hne : pairs = []
  · subst hne
    simp [search_faiss_index]
  · rw [sfi_eq_loop hne, faissLoop_error_iff]
    constructor
    · intro hex
      obtain ⟨pr, hmem, hge, hlen⟩ := hex
      obtain ⟨i, pr2⟩ := pr
      exact ⟨pr2, List.getElem?_mem (List.mk_mem_enum_iff_getElem?.1 hmem),
        hge, hlen⟩
    · intro hex
      obtain ⟨pr, hmem, hge, hlen⟩ := hex
      obtain ⟨i, hi⟩ := List.mem_iff_getElem?.1 hmem
      exact ⟨(i, pr), List.mk_mem_enum_iff_getElem?.2 hi, hge, hlen⟩

/-- Stored similarity scores lie in `[0, 1]`: the normalized value is in
`[0, 1]` because every batch distance lies between the batch min and max,
and 4-decimal rounding keeps the bounds. -/
theorem sfi_sim_bounds {meta : List Product} {pairs : List (ℚ × Int)}
    {cs : List Cand} (h : search_faiss_index meta pairs = .ok cs) :
    ∀ c ∈ cs, 0 ≤ c.similarity_score ∧ c.similarity_score ≤ 1 := by
  intro c hc
  obtain ⟨d, idx, p, hdp, _, _, _, hsim⟩ := sfi_ok_mem h c hc
  have hdm : d ∈ pairs.map Prod.fst := List.mem_map_of_mem Prod.fst hdp
  have h1 : listMin (pairs.map Prod.fst) ≤ d := listMin_le hdm
  have h2 : d ≤ listMax (pairs.map Prod.fst) := le_listMax hdm
  rw [hsim]
  exact ⟨round4_nonneg (simAt_nonneg h1 h2), round4_le_one (simAt_le_one h1)⟩

/-- Candidates of `_search_faiss_index` appear in strictly increasing
`search_rank` (the enumeration order of the neighbour batch). -/
theorem sfi_rank {meta : List Product} {pairs : List (ℚ × Int)}
    {cs : List Cand} (h : search_faiss_index meta pairs = .ok cs) :
    cs.Pairwise (fun a b => a.search_rank < b.search_rank) := by
  by_cases hne : pairs = []
  · subst hne
    simp only [search_faiss_index, Except.ok.injEq] at h
    subst h
    exact List.Pairwise.nil
  · rw [sfi_eq_loop hne] at h
    refine faissLoop_ok_rank h ?_
    have hfst : (pairs.enum.map Prod.fst).Pairwise (· < ·) := by
      rw [List.enum_map_fst]
      exact List.pairwise_lt_range _
    exact List.pairwise_map.1 hfst

/-- The first diversification pass is a sublist of its input. -/
theorem diversifyPass_sublist (seen : List (List Char)) (l : List Cand) :
    (diversifyPass seen l).Sublist l := by
  induction l generalizing seen with
  | nil => simp [diversifyPass]
  | cons r rs ih =>
    simp only [diversifyPass]
    split
    · exact (ih seen).cons r
    · exact (ih (r.category :: seen)).cons₂ r

/-- On duplicate-free input the second pass is exactly "append what the
first pass skipped, in order". -/
theorem fillRemaining_eq {l : List Cand} (hl : l.Nodup) :
    ∀ d : List Cand,
      fillRemaining d l = d ++ l.filter (fun x => decide (x ∉ d)) := by
  induction l with
  | nil => intro d; simp [fillRemaining]
  | cons r rs ih =>
    intro d
    rcases List.nodup_cons.1 hl with ⟨hr, hrs⟩
    simp only [fillRemaining, List.filter_cons]
    by_cases hmem : r ∈ d
    · rw [if_pos hmem]
      have hdec : (decide (r ∉ d)) = false := by simp [hmem]
      rw [hdec]
      simp only [Bool.false_eq_true, if_false]
      exact ih hrs d
    · rw [if_neg hmem]
      have hdec : (decide (r ∉ d)) = true := by simp [hmem]
      rw [hdec]
      simp only [if_true]
      rw [ih hrs (d ++ [r])]
      have hfeq : rs.filter (fun x => decide (x ∉ d ++ [r])) =
          rs.filter (fun x => decide (x ∉ d)) := by
        apply List.filter_congr
        intro x hx
        have hne : x ≠ r := fun he => hr (he ▸ hx)
        simp [List.mem_append, hne]
      rw [hfeq, List.append_assoc]
      simp

/-- For a duplicate-free list, filtering by membership in a sublist
recovers the sublist. -/
theorem filter_mem_sublist {l' l : List Cand} (hs : l'.Sublist l)
    (hl : l.Nodup) : l.filter (fun x => decide (x ∈ l')) = l' := by
  induction hs with
  | slnil => simp
  | @cons l₁ l₂ a hs ih =>
    rcases List.nodup_cons.1 hl with ⟨ha, hl₂⟩
    have han : a ∉ l₁ := fun hm => ha (hs.subset hm)
    simp only [List.filter_cons]
    have hdec : (decide (a ∈ l₁)) = false := by simp [han]
    rw [hdec]
    simp only [Bool.false_eq_true, if_false]
    exact ih hl₂
  | @cons₂ l₁ l₂ a hs ih =>
    rcases List.nodup_cons.1 hl with ⟨ha, hl₂⟩
    simp only [List.filter_cons]
    have hdec : decide (a ∈ a :: l₁) = true := by simp
    rw [hdec]
    simp only [if_true]
    have hfeq : l₂.filter (fun x => decide (x ∈ a :: l₁)) =
        l₂.filter (fun x => decide (x ∈ l₁)) := by
      apply List.filter_congr
      intro x hx
      have hne : x ≠ a := fun he => ha (he ▸ hx)
      simp [hne]
    rw [hfeq, ih hl₂]

/-- On duplicate-free input, diversification permutes its input. -/
theorem diversify_perm {l : List Cand} (hl : l.Nodup) :
    (_diversify_results l).Perm l := by
  unfold _diversify_results
  split
  · exact List.Perm.refl l
  · rw [fillRemaining_eq hl (diversifyPass [] l)]
    have h1 : l.filter (fun x => decide (x ∈ diversifyPass [] l)) =
        diversifyPass [] l :=
      filter_mem_sublist (diversifyPass_sublist [] l) hl
    nth_rewrite 1 [← h1]
    simp only [decide_not]
    exact List.filter_append_perm _ l

theorem mem_fillRemaining {x : Cand} :
    ∀ {d l : List Cand}, x ∈ fillRemaining d l → x ∈ d ∨ x ∈ l := by
  intro d l
  induction l generalizing d with
  | nil => intro h; exact Or.inl h
  | cons r rs ih =>
    intro h
    simp only [fillRemaining] at h
    split at h
    · rcases ih h with h' | h'
      · exact Or.inl h'
      · exact Or.inr (List.mem_cons_of_mem r h')
    · rcases ih h with h' | h'
      · rcases List.mem_append.1 h' with h'' | h''
        · exact Or.inl h''
        · simp only [List.mem_singleton] at h''
          exact Or.inr (h'' ▸ List.mem_cons_self r rs)
      · exact Or.inr (List.mem_cons_of_mem r h')

theorem mem_diversify {x : Cand} {l : List Cand}
    (hx : x ∈ _diversify_results l) : x ∈ l := by
  unfold _diversify_results at hx
  split at hx
  · exact hx
  · rcases mem_fillRemaining hx with h | h
    · exact (diversifyPass_sublist [] l).subset h
    · exact h

theorem fillRemaining_append :
    ∀ {d l : List Cand}, ∃ t, fillRemaining d l = d ++ t := by
  intro d l
  induction l generalizing d with
  | nil => exact ⟨[], by simp [fillRemaining]⟩
  | cons r rs ih =>
    simp only [fillRemaining]
    split
    · exact ih
    · obtain ⟨t, ht⟩ := ih (d := d ++ [r])
      exact ⟨[r] ++ t, by rw [ht, List.append_assoc]⟩

theorem diversify_ne_nil {l : List Cand} (hl : l ≠ []) :
    _diversify_results l ≠ [] := by
  unfold _diversify_results
  split
  · exact hl
  · match l, hl with
    | r :: rs, _ =>
      have hhead : diversifyPass [] (r :: rs) =
          r :: diversifyPass [r.category] rs := by
        simp [diversifyPass]
      obtain ⟨t, ht⟩ := fillRemaining_append
        (d := diversifyPass [] (r :: rs)) (l := r :: rs)
      rw [ht, hhead]
      simp

theorem boostOne_sim (cn : List Char) (qt : List (List Char)) (r : Cand) :
    (boostOne cn qt r).similarity_score = r.similarity_score := rfl

theorem boostOne_rank (cn : List Char) (qt : List (List Char)) (r : Cand) :
    (boostOne cn qt r).search_rank = r.search_rank := rfl

/-- `boostOne` writes exactly the clamped product of the category-boosted
similarity and the term-match factor. -/
theorem boostOne_final_eq (cn : List Char) (qt : List (List Char)) (r : Cand) :
    (boostOne cn qt r).final_score = some (min 1
      ((if cn ≠ [] ∧ strIn cn (lowerStr r.category) = true then
          r.similarity_score * config.CATEGORY_BOOST_FACTOR
        else r.similarity_score) * termFactor qt r)) := by
  unfold boostOne termFactor
  dsimp only
  split_ifs with h1 h2 <;> simp [mul_one]

/-- `boostOne` sets `category_match` to `true` exactly on the line-127
condition and leaves the key untouched otherwise. -/
theorem boostOne_cm_eq (cn : List Char) (qt : List (List Char)) (r : Cand) :
    (boostOne cn qt r).category_match =
      (if cn ≠ [] ∧ strIn cn (lowerStr r.category) = true then some true
       else r.category_match) := by
  unfold boostOne
  dsimp only
  split_ifs <;> rfl

theorem termFactor_nonneg (qt : List (List Char)) (r : Cand) :
    0 ≤ termFactor qt r := by
  unfold termFactor config.TERM_MATCH_BOOST
  split_ifs
  · positivity
  · norm_num

/-- The written `final_score` is always a clamp `min 1 b` of a value `b`
that is nonnegative whenever the incoming similarity is. -/
theorem boostOne_final (cn : List Char) (qt : List (List Char)) (r : Cand)
    (h : 0 ≤ r.similarity_score) :
    ∃ b, 0 ≤ b ∧ (boostOne cn qt r).final_score = some (min 1 b) := by
  refine ⟨(if cn ≠ [] ∧ strIn cn (lowerStr r.category) = true then
      r.similarity_score * config.CATEGORY_BOOST_FACTOR
    else r.similarity_score) * termFactor qt r, ?_, boostOne_final_eq cn qt r⟩
  apply mul_nonneg
  · split_ifs
    · exact mul_nonneg h (by norm_num [config.CATEGORY_BOOST_FACTOR])
    · exact h
  · exact termFactor_nonneg qt r

theorem fuseSort_length (vr : List Cand) (sel : Option RetrievalCandidateOut)
    (q : List Char) : (fuseSort vr sel q).length = vr.length := by
  unfold fuseSort
  rw [(perm_sortStable _ _).length_eq, List.length_map]

theorem mem_fuseSort {vr : List Cand} {sel : Option RetrievalCandidateOut}
    {q : List Char} {c : Cand} (hc : c ∈ fuseSort vr sel q) :
    ∃ c₀ ∈ vr, c = boostOne (catNameOf sel) (pySplit (lowerStr q)) c₀ := by
  unfold fuseSort at hc
  obtain ⟨c₀, hc₀, heq⟩ := List.mem_map.1 (mem_sortStable hc)
  exact ⟨c₀, hc₀, heq.symm⟩

/-- The sort of line 139 on candidates of strictly increasing rank:
descending by the `final_score` key, equal keys in ascending rank order
(stability of Python's `list.sort`). -/
theorem fuseSort_pairwise {vr : List Cand} (sel : Option RetrievalCandidateOut)
    (q : List Char)
    (hr : vr.Pairwise (fun a b => a.search_rank < b.search_rank)) :
    (fuseSort vr sel q).Pairwise (fun a b =>
      b.final_score.getD 0 < a.final_score.getD 0 ∨
      (a.final_score.getD 0 = b.final_score.getD 0 ∧
        a.search_rank < b.search_rank)) := by
  unfold fuseSort
  have hmap : (vr.map
      (boostOne (catNameOf sel) (pySplit (lowerStr q)))).Pairwise
      (fun a b => a.search_rank < b.search_rank) := by
    rw [List.pairwise_map]
    exact hr
  refine pairwise_sortStable hmap ?_ ?_ ?_
  · intro a b hlt
    exact Or.inl (of_decide_eq_true hlt)
  · intro a b hP hlt
    have hle : b.final_score.getD 0 ≤ a.final_score.getD 0 := by
      have := of_decide_eq_false hlt
      exact le_of_not_lt this
    rcases lt_or_eq_of_le hle with hlt' | heq'
    · exact Or.inl hlt'
    · exact Or.inr ⟨heq'.symm, hP⟩
  · intro a b c hPb hPc hlt hR
    have hle : b.final_score.getD 0 ≤ a.final_score.getD 0 := by
      have := of_decide_eq_false hlt
      exact le_of_not_lt this
    have hcb : c.final_score.getD 0 ≤ b.final_score.getD 0 := by
      rcases hR with h' | h'
      · exact le_of_lt h'
      · exact le_of_eq h'.1.symm
    rcases lt_or_eq_of_le (le_trans hcb hle) with hlt' | heq'
    · exact Or.inl hlt'
    · exact Or.inr ⟨heq'.symm, hPc⟩

end SearchService

theorem foldl_min_mem (xs : List ℚ) (a : ℚ) : xs.foldl min a ∈ a :: xs := by
  induction xs generalizing a with
  | nil => simp
  | cons x xs ih =>
    simp only [List.foldl_cons]
    rcases List.mem_cons.1 (ih (min a x)) with h' | h'
    · rcases min_choice a x with h | h
      · exact List.mem_cons.2 (Or.inl (h'.trans h))
      · exact List.mem_cons_of_mem a
          (List.mem_cons.2 (Or.inl (h'.trans h)))
    · exact List.mem_cons_of_mem _ (List.mem_cons_of_mem _ h')

theorem foldl_max_mem (xs : List ℚ) (a : ℚ) : xs.foldl max a ∈ a :: xs := by
  induction xs generalizing a with
  | nil => simp
  | cons x xs ih =>
    simp only [List.foldl_cons]
    rcases List.mem_cons.1 (ih (max a x)) with h' | h'
    · rcases max_choice a x with h | h
      · exact List.mem_cons.2 (Or.inl (h'.trans h))
      · exact List.mem_cons_of_mem a
          (List.mem_cons.2 (Or.inl (h'.trans h)))
    · exact List.mem_cons_of_mem _ (List.mem_cons_of_mem _ h')

theorem listMin_mem {l : List ℚ} (h : l ≠ []) : listMin l ∈ l := by
  match l with
  | x :: xs => exact foldl_min_mem xs x

theorem listMax_mem {l : List ℚ} (h : l ≠ []) : listMax l ∈ l := by
  match l with
  | x :: xs => exact foldl_max_mem xs x

theorem pyLastK_sublist (xs : List α) (k : Nat) : (pyLastK xs k).Sublist xs := by
  unfold pyLastK
  split
  · exact List.Sublist.refl xs
  · exact List.drop_sublist _ xs

theorem pyLastK_length_le (xs : List α) {k : Nat} (hk : k ≠ 0) :
    (pyLastK xs k).length ≤ k := by
  unfold pyLastK
  rw [if_neg hk, List.length_drop]
  omega

/-!
## Claim theorems
-/

/-- C2, counterexample: two catalog entries with *equal* hybrid scores
(semantic ½ each, no keywords; hybrid = ½·0.6 = 0.3 > threshold).  The
claim demands the earlier entry (index 0) first; `searchIdx` returns
`[1, 0]` — the later entry first — because `np.argsort(...)[-top_k:][::-1]`
reverses the stable ascending tie order. -/
theorem claim2_counterexample :
    HybridRetriever.hybridScore [entA0, entA1] (fun _ => 1/2)
        (lowerStr (['q'])) 0 =
      HybridRetriever.hybridScore [entA0, entA1] (fun _ => 1/2)
        (lowerStr (['q'])) 1 ∧
    HybridRetriever.searchIdx [entA0, entA1] (fun _ => 1/2)
      (['q']) 3 = [1, 0] := by
  constructor
  · norm_num [HybridRetriever.hybridScore, HybridRetriever.keywordScore,
      entA0, entA1, List.getD]
  · norm_num [HybridRetriever.searchIdx, HybridRetriever.hybridScore,
      HybridRetriever.keywordScore, entA0, entA1, lowerStr, sortStable,
      insStable, pyLastK, List.getD, List.range, List.range.loop,
      config.HYBRID_SEMANTIC_WEIGHT, config.HYBRID_KEYWORD_WEIGHT,
      config.HYBRID_SCORE_THRESHOLD]

/-- C2, amended: `HybridRetriever.search` selects the above-threshold
entries among the `top_k` highest by hybrid score — every output index is
in range with score strictly above the threshold, at most `top_k` entries
are returned (for positive `top_k`), and every in-range above-threshold
entry left out is strictly below every selected one in the (score, index)
order — but whenever two entries have equal hybrid_score the one *later*
in catalog insertion order appears first (the `[-top_k:][::-1]` slice
reverses the stable ascending argsort, ties included).  The output is
deterministic in its inputs (it is a pure function of them). -/
theorem claim2_amended (entries : List SubcatEntry) (sem : Nat → ℚ)
    (user_query : List Char) (top_k : Nat) :
    (HybridRetriever.searchIdx entries sem user_query top_k).Pairwise
      (fun i j =>
        HybridRetriever.hybridScore entries sem (lowerStr user_query) j <
          HybridRetriever.hybridScore entries sem (lowerStr user_query) i ∨
        (HybridRetriever.hybridScore entries sem (lowerStr user_query) j =
          HybridRetriever.hybridScore entries sem (lowerStr user_query) i ∧
          j < i)) ∧
    (∀ i ∈ HybridRetriever.searchIdx entries sem user_query top_k,
      i < entries.length ∧
      config.HYBRID_SCORE_THRESHOLD <
        HybridRetriever.hybridScore entries sem (lowerStr user_query) i) ∧
    (0 < top_k →
      (HybridRetriever.searchIdx entries sem user_query top_k).length
        ≤ top_k) ∧
    (∀ j < entries.length,
      j ∉ HybridRetriever.searchIdx entries sem user_query top_k →
      config.HYBRID_SCORE_THRESHOLD <
        HybridRetriever.hybridScore entries sem (lowerStr user_query) j →
      ∀ i ∈ HybridRetriever.searchIdx entries sem user_query top_k,
        HybridRetriever.hybridScore entries sem (lowerStr user_query) j <
          HybridRetriever.hybridScore entries sem (lowerStr user_query) i ∨
        (HybridRetriever.hybridScore entries sem (lowerStr user_query) j =
          HybridRetriever.hybridScore entries sem (lowerStr user_query) i ∧
          j < i)) := by
  by_cases hq : user_query.isEmpty = true
  · have hnil : HybridRetriever.searchIdx entries sem user_query top_k
        = [] := by
      unfold HybridRetriever.searchIdx
      rw [if_pos hq]
    rw [hnil]
    refine ⟨List.Pairwise.nil, ?_, ?_, ?_⟩
    · intro i hi
      cases hi
    · intro _
      simp
    · intro j _ _ _ i hi
      cases hi
  · unfold HybridRetriever.searchIdx
    rw [if_neg hq]
    dsimp only
    set score := HybridRetriever.hybridScore entries sem (lowerStr user_query)
      with hscore
    set S := sortStable (fun j i => decide (score j < score i))
      (List.range entries.length) with hS
    have hsorted : S.Pairwise
        (fun a b => score a < score b ∨ (score a = score b ∧ a < b)) := by
      rw [hS]
      refine pairwise_sortStable (List.pairwise_lt_range entries.length)
        ?_ ?_ ?_
      · intro a b hlt
        exact Or.inl (of_decide_eq_true hlt)
      · intro a b hP hlt
        have hle := le_of_not_lt (of_decide_eq_false hlt)
        rcases lt_or_eq_of_le hle with h' | h'
        · exact Or.inl h'
        · exact Or.inr ⟨h', hP⟩
      · intro a b c hPb hPc hlt hR
        have hle := le_of_not_lt (of_decide_eq_false hlt)
        have hbc : score b ≤ score c := by
          rcases hR with h' | h'
          · exact le_of_lt h'
          · exact le_of_eq h'.1
        rcases lt_or_eq_of_le (le_trans hle hbc) with h' | h'
        · exact Or.inl h'
        · exact Or.inr ⟨h', hPc⟩
    have hperm : S.Perm (List.range entries.length) := by
      rw [hS]
      exact perm_sortStable _ _
    refine ⟨?_, ?_, ?_, ?_⟩
    · apply List.Pairwise.sublist (List.filter_sublist _)
      rw [List.pairwise_reverse]
      exact List.Pairwise.sublist (pyLastK_sublist _ _) hsorted
    · intro i hi
      obtain ⟨hrev, hdec⟩ := List.mem_filter.1 hi
      refine ⟨?_, of_decide_eq_true hdec⟩
      have hiS : i ∈ S :=
        (pyLastK_sublist S top_k).subset (List.mem_reverse.1 hrev)
      exact List.mem_range.1 (hperm.mem_iff.1 hiS)
    · intro hk
      have h1 := List.length_filter_le
        (fun i => decide (score i > config.HYBRID_SCORE_THRESHOLD))
        (pyLastK S top_k).reverse
      have h2 : ((pyLastK S top_k).reverse).length = (pyLastK S top_k).length :=
        List.length_reverse _
      have h3 : (pyLastK S top_k).length ≤ top_k :=
        pyLastK_length_le S (by omega)
      omega
    · intro j hj hnot hθ i hi
      have hjS : j ∈ S := hperm.mem_iff.2 (List.mem_range.2 hj)
      have hiS : i ∈ pyLastK S top_k :=
        List.mem_reverse.1 (List.mem_filter.1 hi).1
      by_cases hk0 : top_k = 0
      · exfalso
        apply hnot
        refine List.mem_filter.2 ⟨List.mem_reverse.2 ?_, decide_eq_true hθ⟩
        unfold pyLastK
        rw [if_pos hk0]
        exact hjS
      · have hjslice : j ∉ pyLastK S top_k := by
          intro hjs
          exact hnot
            (List.mem_filter.2 ⟨List.mem_reverse.2 hjs, decide_eq_true hθ⟩)
        have hdropdef : pyLastK S top_k = S.drop (S.length - top_k) := by
          unfold pyLastK
          rw [if_neg hk0]
        have hjfull : j ∈ S.take (S.length - top_k) ++
            S.drop (S.length - top_k) := by
          rw [List.take_append_drop]
          exact hjS
        have hjtake : j ∈ S.take (S.length - top_k) := by
          rcases List.mem_append.1 hjfull with h | h
          · exact h
          · exact absurd h (by rw [← hdropdef]; exact hjslice)
        have hpa : (S.take (S.length - top_k) ++
            S.drop (S.length - top_k)).Pairwise
            (fun a b => score a < score b ∨ (score a = score b ∧ a < b)) := by
          rw [List.take_append_drop]
          exact hsorted
        obtain ⟨-, -, hcross⟩ := List.pairwise_append.1 hpa
        refine hcross j hjtake i ?_
        rw [← hdropdef]
        exact hiS

theorem claim2_witness :
    (1 < ([entA0, entA1] : List SubcatEntry).length ∧
      config.HYBRID_SCORE_THRESHOLD <
        HybridRetriever.hybridScore [entA0, entA1] (fun _ => 1/2)
          (lowerStr ['q']) 1) ∧
    (HybridRetriever.searchIdx [entA0, entA1] (fun _ => 1/2) ['q'] 1).length
        ≤ 1 ∧
    (HybridRetriever.hybridScore [entA0, entA1] (fun _ => 1/2)
        (lowerStr ['q']) 0 <
      HybridRetriever.hybridScore [entA0, entA1] (fun _ => 1/2)
        (lowerStr ['q']) 1 ∨
      (HybridRetriever.hybridScore [entA0, entA1] (fun _ => 1/2)
          (lowerStr ['q']) 0 =
        HybridRetriever.hybridScore [entA0, entA1] (fun _ => 1/2)
          (lowerStr ['q']) 1 ∧ 0 < 1)) := by
  have heval : HybridRetriever.searchIdx [entA0, entA1] (fun _ => 1/2)
      ['q'] 1 = [1] := by
    norm_num [HybridRetriever.searchIdx, HybridRetriever.hybridScore,
      HybridRetriever.keywordScore, entA0, entA1, lowerStr, sortStable,
      insStable, pyLastK, List.getD, List.range, List.range.loop,
      config.HYBRID_SEMANTIC_WEIGHT, config.HYBRID_KEYWORD_WEIGHT,
      config.HYBRID_SCORE_THRESHOLD]
  obtain ⟨hpair, hmem, hlen, hmax⟩ :=
    claim2_amended [entA0, entA1] (fun _ => 1/2) ['q'] 1
  refine ⟨hmem 1 ?_, hlen (by norm_num), hmax 0 (by simp) ?_ ?_ 1 ?_⟩
  · rw [heval]
    exact List.mem_cons_self _ _
  · rw [heval]
    simp
  · norm_num [HybridRetriever.hybridScore, HybridRetriever.keywordScore,
      entA0, entA1, List.getD, config.HYBRID_SEMANTIC_WEIGHT,
      config.HYBRID_KEYWORD_WEIGHT, config.HYBRID_SCORE_THRESHOLD]
  · rw [heval]
    exact List.mem_cons_self _ _

/-- C4, counterexample: a length-4 input of four *equal* candidates (equal
dicts).  The claim demands `len(diversify(X)) == len(X)` for every X; the
code returns a single element because the first pass keeps only the first
occurrence and the second pass's `res not in diversified` value test then
rejects every duplicate. -/
theorem claim4_counterexample :
    (SearchService._diversify_results [candP, candP, candP, candP]).length
      ≠ ([candP, candP, candP, candP] : List Cand).length := by
  decide

/-- C4, amended: on *duplicate-free* input (the pipeline's candidates are
duplicate-free: their `search_rank` values are distinct), diversification
is a permutation — same length, each element exactly once; and an input of
length ≤ 3 is returned unchanged.  With duplicated equal elements the
later copies are dropped. -/
theorem claim4_amended (X : List Cand) :
    (X.Nodup → (SearchService._diversify_results X).Perm X) ∧
    (X.length ≤ 3 → SearchService._diversify_results X = X) := by
  constructor
  · intro hX
    exact SearchService.diversify_perm hX
  · intro hlen
    unfold SearchService._diversify_results
    rw [if_pos hlen]

theorem claim4_amended_witness :
    (SearchService._diversify_results [candP, candQ, candR, candS]).Perm
      [candP, candQ, candR, candS] :=
  (claim4_amended [candP, candQ, candR, candS]).1 (by decide)

/-- C5: the fusion ranker's sort (line 139, before the diversification
pass) is descending in the `final_score` sort key, and candidates with
equal keys appear in ascending `search_rank` — the vector-engine
candidates enter in strictly increasing rank, and Python's sort is
stable. -/
theorem claim5_sorted (meta : List Product) (pairs : List (ℚ × Int))
    (sel : Option RetrievalCandidateOut) (query : List Char)
    (vr : List Cand)
    (hvr : SearchService.search_faiss_index meta pairs = .ok vr) :
    (SearchService.fuseSort vr sel query).Pairwise (fun a b =>
      b.final_score.getD 0 < a.final_score.getD 0 ∨
      (a.final_score.getD 0 = b.final_score.getD 0 ∧
        a.search_rank < b.search_rank)) :=
  SearchService.fuseSort_pairwise sel query (SearchService.sfi_rank hvr)

/-- C5 witness: a two-candidate batch at equal distance (both
similarities 1, equal final scores) sorted by the fusion ranker. -/
theorem claim5_witness :
    (SearchService.fuseSort
      [SearchService.mkCand prodPhone 1 1, SearchService.mkCand prodPhone 1 2]
      none (['q'])).Pairwise (fun a b =>
      b.final_score.getD 0 < a.final_score.getD 0 ∨
      (a.final_score.getD 0 = b.final_score.getD 0 ∧
        a.search_rank < b.search_rank)) :=
  claim5_sorted [prodPhone] [(0, 0), (0, 0)] none (['q'])
    [SearchService.mkCand prodPhone 1 1, SearchService.mkCand prodPhone 1 2]
    (by norm_num [SearchService.search_faiss_index, SearchService.faissLoop,
      SearchService.simAt, listMin, listMax, List.enum, List.enumFrom,
      SearchService.mkCand, List.getElem?_cons_zero,
      config.SIMILARITY_THRESHOLD])

/-- C6, counterexample: a resolved category whose `subcategory_name` is
the *empty* string.  In Python `"" in s` is `True`, so the claim's
condition ("its lowercased subcategory_name is a substring of the
candidate's lowercased category field") holds and the claim demands the
1.2× boost and `category_match = true`; the code's guard `if category_name
and ...` is falsy for the empty string, so the score stays `½` unboosted
(not `½·1.2 = 3/5`) and `category_match` is never written (also: a
non-matching candidate keeps the key *absent*, not `false`). -/
theorem claim6_counterexample :
    strIn (SearchService.catNameOf (some catEmptyName))
      (lowerStr candPhones.category) = true ∧
    (SearchService.boostOne (SearchService.catNameOf (some catEmptyName)) []
      candPhones).final_score = some (1/2) ∧
    (SearchService.boostOne (SearchService.catNameOf (some catEmptyName)) []
      candPhones).final_score ≠ some (3/5) ∧
    (SearchService.boostOne (SearchService.catNameOf (some catEmptyName)) []
      candPhones).category_match = none := by
  refine ⟨by decide, ?_, ?_, ?_⟩
  · norm_num [SearchService.boostOne, SearchService.catNameOf, catEmptyName,
      candPhones, lowerStr]
  · norm_num [SearchService.boostOne, SearchService.catNameOf, catEmptyName,
      candPhones, lowerStr]
  · norm_num [SearchService.boostOne, SearchService.catNameOf, catEmptyName,
      candPhones, lowerStr]

/-- C6, amended: the boost fires only when the lowercased
`subcategory_name` is *non-empty* and a substring of the candidate's
lowercased category; then the similarity is multiplied by
`CATEGORY_BOOST_FACTOR` (before the term factor and clamp) and
`category_match` is set to `true`.  Otherwise the score enters the term
stage unmultiplied and `category_match` is left untouched (absent, not
`false`). -/
theorem claim6_amended (sel : Option RetrievalCandidateOut)
    (qt : List (List Char)) (r : Cand) :
    ((SearchService.catNameOf sel ≠ [] ∧
        strIn (SearchService.catNameOf sel) (lowerStr r.category) = true) →
      (SearchService.boostOne (SearchService.catNameOf sel) qt r).category_match
          = some true ∧
      (SearchService.boostOne (SearchService.catNameOf sel) qt r).final_score
          = some (min 1 (r.similarity_score * config.CATEGORY_BOOST_FACTOR *
              SearchService.termFactor qt r))) ∧
    ((SearchService.catNameOf sel = [] ∨
        strIn (SearchService.catNameOf sel) (lowerStr r.category) = false) →
      (SearchService.boostOne (SearchService.catNameOf sel) qt r).category_match
          = r.category_match ∧
      (SearchService.boostOne (SearchService.catNameOf sel) qt r).final_score
          = some (min 1 (r.similarity_score * SearchService.termFactor qt r))) := by
  constructor
  · intro h
    constructor
    · rw [SearchService.boostOne_cm_eq, if_pos h]
    · rw [SearchService.boostOne_final_eq, if_pos h]
  · intro h
    have hneg : ¬(SearchService.catNameOf sel ≠ [] ∧
        strIn (SearchService.catNameOf sel) (lowerStr r.category) = true) := by
      rcases h with h | h
      · exact fun hc => hc.1 h
      · intro hc
        rw [h] at hc
        exact Bool.false_ne_true hc.2
    constructor
    · rw [SearchService.boostOne_cm_eq, if_neg hneg]
    · rw [SearchService.boostOne_final_eq, if_neg hneg]

theorem claim6_amended_witness :
    (SearchService.boostOne (SearchService.catNameOf (some catPhones)) []
        candPhones).category_match = some true ∧
    (SearchService.boostOne (SearchService.catNameOf (some catPhones)) []
        candPhones).final_score =
      some (min 1 (candPhones.similarity_score * config.CATEGORY_BOOST_FACTOR *
        SearchService.termFactor [] candPhones)) :=
  (claim6_amended (some catPhones) [] candPhones).1 ⟨by decide, by decide⟩

/-- C7: each produced candidate's stored `similarity_score` is the
4-decimal rounding of the line-83 batch-relative normalization
`simAt min_d max_d d` evaluated at the candidate's own neighbour distance
(`simAt` is `1` when `max_d = min_d`, else `1 - (d - min_d)/(max_d -
min_d)`); in particular, when all returned distances are equal every
candidate's `similarity_score` is exactly 1. -/
theorem claim7_normalization (meta : List Product) (pairs : List (ℚ × Int))
    (cs : List Cand)
    (h : SearchService.search_faiss_index meta pairs = .ok cs) :
    (∀ c ∈ cs, ∃ d idx, (d, idx) ∈ pairs ∧
      c.similarity_score = round4 (SearchService.simAt
        (listMin (pairs.map Prod.fst)) (listMax (pairs.map Prod.fst)) d)) ∧
    ((∀ x ∈ pairs, ∀ y ∈ pairs, x.1 = y.1) →
      ∀ c ∈ cs, c.similarity_score = 1) := by
  constructor
  · intro c hc
    obtain ⟨d, idx, p, hdp, _, _, _, hsim⟩ := SearchService.sfi_ok_mem h c hc
    exact ⟨d, idx, hdp, hsim⟩
  · intro hall c hc
    obtain ⟨d, idx, p, hdp, _, _, _, hsim⟩ := SearchService.sfi_ok_mem h c hc
    have hne : pairs ≠ [] := by
      intro he
      rw [he] at hdp
      cases hdp
    have hne' : pairs.map Prod.fst ≠ [] := by
      simpa using hne
    obtain ⟨x, hx, hxe⟩ := List.mem_map.1 (listMin_mem hne')
    obtain ⟨y, hy, hye⟩ := List.mem_map.1 (listMax_mem hne')
    have hdeg : listMax (pairs.map Prod.fst) ≤ listMin (pairs.map Prod.fst) := by
      rw [← hxe, ← hye]
      exact le_of_eq (hall y hy x hx)
    rw [hsim, SearchService.simAt_degenerate hdeg, round4_one]

theorem claim7_witness :
    (SearchService.mkCand prodPhone 1 1).similarity_score = 1 :=
  (claim7_normalization [prodPhone] [(0, 0), (0, 0)]
    [SearchService.mkCand prodPhone 1 1, SearchService.mkCand prodPhone 1 2]
    (by norm_num [SearchService.search_faiss_index, SearchService.faissLoop,
      SearchService.simAt, listMin, listMax, List.enum, List.enumFrom,
      SearchService.mkCand, List.getElem?_cons_zero,
      config.SIMILARITY_THRESHOLD])).2
    (by
      intro x hx y hy
      have hx' : x = ((0 : ℚ), (0 : Int)) := by
        rcases List.mem_cons.1 hx with h | h
        · exact h
        · simpa using h
      have hy' : y = ((0 : ℚ), (0 : Int)) := by
        rcases List.mem_cons.1 hy with h | h
        · exact h
        · simpa using h
      rw [hx', hy'])
    (SearchService.mkCand prodPhone 1 1) (List.mem_cons_self _ _)

/-- C8: no entry whose hybrid score is at or below the 0.2 threshold
survives the retriever's final filter, and no candidate whose normalized
similarity is below 0.3 is produced by the vector engine (its stored,
rounded score is therefore also ≥ 0.3). -/
theorem claim8_thresholds :
    (∀ (entries : List SubcatEntry) (sem : Nat → ℚ) (q : List Char) (k : Nat),
      ∀ i ∈ HybridRetriever.searchIdx entries sem q k,
        config.HYBRID_SCORE_THRESHOLD <
          HybridRetriever.hybridScore entries sem (lowerStr q) i) ∧
    (∀ (meta : List Product) (pairs : List (ℚ × Int)) (cs : List Cand),
      SearchService.search_faiss_index meta pairs = .ok cs →
      ∀ c ∈ cs, config.SIMILARITY_THRESHOLD ≤ c.similarity_score) := by
  constructor
  · intro entries sem q k i hi
    unfold HybridRetriever.searchIdx at hi
    by_cases hq : q.isEmpty = true
    · rw [if_pos hq] at hi
      cases hi
    · rw [if_neg hq] at hi
      dsimp only at hi
      exact of_decide_eq_true (List.mem_filter.1 hi).2
  · intro meta pairs cs h c hc
    obtain ⟨d, idx, p, _, _, _, hθ, hsim⟩ := SearchService.sfi_ok_mem h c hc
    rw [hsim]
    have hgr : ((3000 : ℤ) : ℚ) / 10000 ≤ SearchService.simAt
        (listMin (pairs.map Prod.fst)) (listMax (pairs.map Prod.fst)) d := by
      refine le_trans (le_of_eq ?_) hθ
      norm_num [config.SIMILARITY_THRESHOLD]
    have hres := grid_le_round4 hgr
    refine le_trans (le_of_eq ?_) hres
    norm_num [config.SIMILARITY_THRESHOLD]

theorem claim8_witness :
    config.HYBRID_SCORE_THRESHOLD <
      HybridRetriever.hybridScore [entA0, entA1] (fun _ => 1/2)
        (lowerStr (['q'])) 1 :=
  claim8_thresholds.1 [entA0, entA1] (fun _ => 1/2) (['q']) 3 1
    (by norm_num [HybridRetriever.searchIdx, HybridRetriever.hybridScore,
      HybridRetriever.keywordScore, entA0, entA1, lowerStr, sortStable,
      insStable, pyLastK, List.getD, List.range, List.range.loop,
      config.HYBRID_SEMANTIC_WEIGHT, config.HYBRID_KEYWORD_WEIGHT,
      config.HYBRID_SCORE_THRESHOLD])

/-- C9: every candidate the pipeline returns has `similarity_score` in
`[0, 1]`, a `final_score` that is literally `min 1 b` of a nonnegative
boosted value `b`, and therefore a `final_score` in `[0, 1]`. -/
theorem claim9_bounds (meta : List Product) (pairs : List (ℚ × Int))
    (retrieved : List RetrievalCandidateOut) (apiKeySet : Bool)
    (llm : LLMResp) (query : List Char) (k : Nat)
    (r : SearchService.SearchResultM)
    (h : SearchService.search meta pairs retrieved apiKeySet llm query k
      = .ok r) :
    ∀ c ∈ r.products, (0 ≤ c.similarity_score ∧ c.similarity_score ≤ 1) ∧
      (∃ b, 0 ≤ b ∧ c.final_score = some (min 1 b)) ∧
      ∃ f, c.final_score = some f ∧ 0 ≤ f ∧ f ≤ 1 := by
  intro c hc
  unfold SearchService.search at h
  cases hsfi : SearchService.search_faiss_index meta pairs with
  | error e =>
    rw [hsfi] at h
    cases h
  | ok vr =>
    rw [hsfi] at h
    simp only [Except.ok.injEq] at h
    subst h
    have hc1 : c ∈ SearchService._fuse_and_rerank_results vr
        (SearchService._find_best_category retrieved apiKeySet llm) query :=
      List.take_subset _ _ hc
    unfold SearchService._fuse_and_rerank_results at hc1
    have hc2 := SearchService.mem_diversify hc1
    obtain ⟨c₀, hc₀, hceq⟩ := SearchService.mem_fuseSort hc2
    have hsb := SearchService.sfi_sim_bounds hsfi c₀ hc₀
    subst hceq
    refine ⟨⟨?_, ?_⟩, ?_, ?_⟩
    · rw [SearchService.boostOne_sim]
      exact hsb.1
    · rw [SearchService.boostOne_sim]
      exact hsb.2
    · exact SearchService.boostOne_final _ _ _ hsb.1
    · obtain ⟨b, hb, heq⟩ := SearchService.boostOne_final _ _ _ hsb.1
      exact ⟨min 1 b, heq, le_min (by norm_num) hb, min_le_left _ _⟩

namespace StoreModel

theorem take_set_of_le {l : Heap} {i n : Nat} (h : n ≤ i) (a : HDict) :
    (l.set i a).take n = l.take n := by
  induction l generalizing i n with
  | nil => simp
  | cons x xs ih =>
    cases n with
    | zero => simp
    | succ n =>
      cases i with
      | zero => omega
      | succ i =>
        simp only [List.set_cons_succ, List.take_succ_cons]
        rw [ih (by omega)]

/-- The vector-search stage only *allocates*: the final heap extends the
initial one, and every candidate id is fresh (at or past the initial
length). -/
theorem faissLoopSt_frame {metaIds : List Nat} {minD maxD : ℚ} :
    ∀ {l : List (Nat × ℚ × Int)} {heap : Heap} {cids : List Nat} {h' : Heap},
    faissLoopSt heap metaIds minD maxD l = .ok (cids, h') →
    ∃ ext, h' = heap ++ ext ∧ ∀ c ∈ cids, heap.length ≤ c := by
  intro l
  induction l with
  | nil =>
    intro heap cids h' h
    simp only [faissLoopSt, Except.ok.injEq, Prod.mk.injEq] at h
    obtain ⟨hc, hh⟩ := h
    subst hc
    subst hh
    exact ⟨[], by simp, by simp⟩
  | cons hd rest ih =>
    intro heap cids h' h
    obtain ⟨i, d, idx⟩ := hd
    simp only [faissLoopSt] at h
    split at h
    · split at h
      · simp at h
      · rename_i mid hmid
        split at h
        · simp at h
        · rename_i p hp
          split at h
          · split at h
            · simp at h
            · rename_i pair hrec
              simp only [Except.ok.injEq, Prod.mk.injEq] at h
              obtain ⟨hc, hh⟩ := h
              subst hc
              subst hh
              obtain ⟨ext, hext, hge⟩ := ih hrec
              refine ⟨({ p with
                  similarity_score :=
                    some (round4 (SearchService.simAt minD maxD d)),
                  search_rank := some (i + 1) } : HDict) :: ext, ?_, ?_⟩
              · rw [hext, List.append_assoc]
                rfl
              · intro c hc
                rcases List.mem_cons.1 hc with hce | hce
                · subst hce
                  exact le_refl _
                · have := hge c hce
                  rw [List.length_append] at this
                  omega
          · exact ih h
    · exact ih h

theorem writeBoost_frame {heap : Heap} {cid n : Nat} (hn : n ≤ cid)
    (cn : List Char) (qt : List (List Char)) :
    (writeBoost cn qt heap cid).take n = heap.take n := by
  unfold writeBoost
  split
  · rfl
  · exact take_set_of_le hn _

theorem fuseWrites_frame (n : Nat) (cn : List Char) (qt : List (List Char)) :
    ∀ {cids : List Nat} {heap : Heap}, (∀ c ∈ cids, n ≤ c) →
    (fuseWrites cn qt heap cids).take n = heap.take n := by
  intro cids
  induction cids with
  | nil =>
    intro heap _
    rfl
  | cons c cs ih =>
    intro heap hall
    simp only [fuseWrites]
    rw [ih (fun x hx => hall x (List.mem_cons_of_mem c hx))]
    exact writeBoost_frame (hall c (List.mem_cons_self c cs)) cn qt

/-- One request leaves the shared state intact: `product_metadata` and the
retriever index are returned untouched, and the heap after the request
agrees with the initial heap on the whole initial prefix — the fusion
writes all land on candidate ids `faissLoopSt` allocated past it. -/
theorem searchSt_frame {st : ServiceState} {pairs : List (ℚ × Int)}
    {retrieved : List RetrievalCandidateOut} {apiKeySet : Bool}
    {llm : LLMResp} {query : List Char} {max_results : Nat}
    {res : Option RetrievalCandidateOut × List HDict} {st' : ServiceState}
    (h : searchSt st pairs retrieved apiKeySet llm query max_results
      = .ok (res, st')) :
    st'.product_metadata = st.product_metadata ∧
    st'.subcat_index = st.subcat_index ∧
    st'.heap.take st.heap.length = st.heap := by
  unfold searchSt at h
  split at h
  · simp only [Except.ok.injEq, Prod.mk.injEq] at h
    obtain ⟨_, hh⟩ := h
    subst hh
    exact ⟨rfl, rfl, List.take_length st.heap⟩
  · dsimp only at h
    split at h
    · simp at h
    · rename_i cids h1 hrec
      simp only [Except.ok.injEq, Prod.mk.injEq] at h
      obtain ⟨_, hh⟩ := h
      subst hh
      refine ⟨rfl, rfl, ?_⟩
      obtain ⟨ext, hext, hge⟩ := faissLoopSt_frame hrec
      show (fuseWrites _ _ h1 cids).take st.heap.length = st.heap
      rw [fuseWrites_frame st.heap.length _ _ hge, hext,
        List.take_append_of_le_length (le_refl _), List.take_length]

end StoreModel

/-- C10: a request mutates none of the shared post-initialization state:
`product_metadata` (the id list and each dict it references), the
retriever's subcategory index, and every heap cell the metadata points at
are the same after `search` as before — every annotation lands on a
`.copy()`-allocated dict — and a second identical request therefore still
observes the initial shared state. -/
theorem claim10_frame (st : StoreModel.ServiceState) (pairs : List (ℚ × Int))
    (retrieved : List RetrievalCandidateOut) (apiKeySet : Bool)
    (llm : LLMResp) (query : List Char) (k : Nat)
    (res res₂ : Option RetrievalCandidateOut × List HDict)
    (st' st₂ : StoreModel.ServiceState)
    (hwf : ∀ i ∈ st.product_metadata, i < st.heap.length)
    (h1 : StoreModel.searchSt st pairs retrieved apiKeySet llm query k
      = .ok (res, st'))
    (h2 : StoreModel.searchSt st' pairs retrieved apiKeySet llm query k
      = .ok (res₂, st₂)) :
    st'.product_metadata = st.product_metadata ∧
    st'.subcat_index = st.subcat_index ∧
    st'.heap.take st.heap.length = st.heap ∧
    (∀ i ∈ st.product_metadata, st'.heap[i]? = st.heap[i]?) ∧
    (∀ i ∈ st.product_metadata, st₂.heap[i]? = st.heap[i]?) := by
  obtain ⟨hm1, hs1, hh1⟩ := StoreModel.searchSt_frame h1
  obtain ⟨hm2, hs2, hh2⟩ := StoreModel.searchSt_frame h2
  have hlen1 : st.heap.length ≤ st'.heap.length := by
    have hcong := congrArg List.length hh1
    rw [List.length_take] at hcong
    omega
  have hread1 : ∀ i ∈ st.product_metadata, st'.heap[i]? = st.heap[i]? := by
    intro i hi
    have hlt := hwf i hi
    calc st'.heap[i]? = (st'.heap.take st.heap.length)[i]? :=
          (List.getElem?_take_of_lt hlt).symm
      _ = st.heap[i]? := by rw [hh1]
  refine ⟨hm1, hs1, hh1, hread1, ?_⟩
  intro i hi
  have hlt : i < st'.heap.length := lt_of_lt_of_le (hwf i hi) hlen1
  have hstep : st₂.heap[i]? = st'.heap[i]? := by
    calc st₂.heap[i]? = (st₂.heap.take st'.heap.length)[i]? :=
          (List.getElem?_take_of_lt hlt).symm
      _ = st'.heap[i]? := by rw [hh2]
  rw [hstep, hread1 i hi]

theorem searchSt_eval :
    StoreModel.searchSt stateOne [(0, 0)] [] true .jdictOther ['q'] 5 =
      .ok ((none, [hd0b]), ⟨[hd0, hd0b], [0], [entA0]⟩) := by
  have hsplit : pySplit (lowerStr ['q']) = [['q']] := by decide
  have hfl : (List.filter
      (fun term => strIn term (lowerStr ['p','h','o','n','e'])) [['q']]).length
      = 0 := by decide
  norm_num [StoreModel.searchSt, StoreModel.faissLoopSt, StoreModel.writeBoost,
    StoreModel.fuseWrites, StoreModel.diversifySt, StoreModel.diversifyPassSt,
    StoreModel.fillRemainingSt, StoreModel.keyH, StoreModel.catH,
    SearchService.simAt, SearchService._find_best_category, listMin, listMax,
    List.enum, List.enumFrom, sortStable, insStable, stateOne, hd0, hd0b,
    hsplit, hfl, round4_one, config.SIMILARITY_THRESHOLD,
    config.CATEGORY_BOOST_FACTOR, config.TERM_MATCH_BOOST,
    List.getElem?_cons_zero, List.getElem?_cons_succ, List.set,
    List.filterMap_cons, List.filterMap_nil]

theorem searchSt_eval2 :
    StoreModel.searchSt (⟨[hd0, hd0b], [0], [entA0]⟩ :
        StoreModel.ServiceState) [(0, 0)] [] true .jdictOther ['q'] 5 =
      .ok ((none, [hd0b]), ⟨[hd0, hd0b, hd0b], [0], [entA0]⟩) := by
  have hsplit : pySplit (lowerStr ['q']) = [['q']] := by decide
  have hfl : (List.filter
      (fun term => strIn term (lowerStr ['p','h','o','n','e'])) [['q']]).length
      = 0 := by decide
  norm_num [StoreModel.searchSt, StoreModel.faissLoopSt, StoreModel.writeBoost,
    StoreModel.fuseWrites, StoreModel.diversifySt, StoreModel.diversifyPassSt,
    StoreModel.fillRemainingSt, StoreModel.keyH, StoreModel.catH,
    SearchService.simAt, SearchService._find_best_category, listMin, listMax,
    List.enum, List.enumFrom, sortStable, insStable, hd0, hd0b,
    hsplit, hfl, round4_one, config.SIMILARITY_THRESHOLD,
    config.CATEGORY_BOOST_FACTOR, config.TERM_MATCH_BOOST,
    List.getElem?_cons_zero, List.getElem?_cons_succ, List.set,
    List.filterMap_cons, List.filterMap_nil]

theorem claim10_witness :
    (⟨[hd0, hd0b], [0], [entA0]⟩ : StoreModel.ServiceState).product_metadata
        = stateOne.product_metadata ∧
    (⟨[hd0, hd0b], [0], [entA0]⟩ : StoreModel.ServiceState).subcat_index
        = stateOne.subcat_index ∧
    ([hd0, hd0b] : Heap).take stateOne.heap.length = stateOne.heap ∧
    ([hd0, hd0b] : Heap)[0]? = stateOne.heap[0]? ∧
    ([hd0, hd0b, hd0b] : Heap)[0]? = stateOne.heap[0]? := by
  obtain ⟨h1, h2, h3, h4, h5⟩ :=
    claim10_frame stateOne [(0, 0)] [] true .jdictOther ['q'] 5
      (none, [hd0b]) (none, [hd0b]) ⟨[hd0, hd0b], [0], [entA0]⟩
      ⟨[hd0, hd0b, hd0b], [0], [entA0]⟩ (by decide) searchSt_eval
      searchSt_eval2
  exact ⟨h1, h2, h3, h4 0 (by decide), h5 0 (by decide)⟩

theorem sfi_eval_single :
    SearchService.search_faiss_index [prodPhone] [(0, 0)] =
      .ok [SearchService.mkCand prodPhone 1 1] := by
  norm_num [SearchService.search_faiss_index, SearchService.faissLoop,
    SearchService.simAt, listMin, listMax, List.enum, List.enumFrom,
    List.getElem?_cons_zero, config.SIMILARITY_THRESHOLD]

theorem search_eval_none :
    SearchService.search [prodPhone] [(0, 0)] [] true .jdictOther ['q'] 5 =
      .ok ⟨none, [candF]⟩ := by
  have hsplit : pySplit (lowerStr ['q']) = [['q']] := by decide
  have hfl : (List.filter
      (fun term => strIn term (lowerStr ['p','h','o','n','e'])) [['q']]).length
      = 0 := by decide
  norm_num [SearchService.search, SearchService._find_best_category,
    SearchService.search_faiss_index, SearchService.faissLoop,
    SearchService.simAt, SearchService._fuse_and_rerank_results,
    SearchService.fuseSort, SearchService.boostOne, SearchService.catNameOf,
    SearchService._diversify_results, SearchService.diversifyPass,
    SearchService.fillRemaining, SearchService.mkCand, listMin, listMax,
    List.enum, List.enumFrom, sortStable, insStable, prodPhone, candF,
    hsplit, hfl, round4_one, config.SIMILARITY_THRESHOLD,
    config.CATEGORY_BOOST_FACTOR, config.TERM_MATCH_BOOST,
    List.getElem?_cons_zero]

theorem search_eval_cat :
    SearchService.search [prodPhone] [(0, 0)] [catA0] true .jdictOther
      ['q'] 5 = .ok ⟨some catA0, [candF]⟩ := by
  have hsplit : pySplit (lowerStr ['q']) = [['q']] := by decide
  have hfl : (List.filter
      (fun term => strIn term (lowerStr ['p','h','o','n','e'])) [['q']]).length
      = 0 := by decide
  have hcat : strIn (lowerStr ['a','0']) (lowerStr ['P','h','o','n','e','s'])
      = false := by decide
  norm_num [SearchService.search, SearchService._find_best_category,
    SearchService.search_faiss_index, SearchService.faissLoop,
    SearchService.simAt, SearchService._fuse_and_rerank_results,
    SearchService.fuseSort, SearchService.boostOne, SearchService.catNameOf,
    SearchService._diversify_results, SearchService.diversifyPass,
    SearchService.fillRemaining, SearchService.mkCand, listMin, listMax,
    List.enum, List.enumFrom, sortStable, insStable, prodPhone, candF, catA0,
    hsplit, hfl, hcat, round4_one, config.SIMILARITY_THRESHOLD,
    config.CATEGORY_BOOST_FACTOR, config.TERM_MATCH_BOOST,
    List.getElem?_cons_zero]

/-- C1, counterexample: the retriever produced a candidate and the
classifier returned an error dict (`CategoryClassifier errors`).  The
claim says `selected_category` must then be `null`; the code falls back to
the top retrieved candidate, so the result carries `some catA0`, not
`none` (the request itself still succeeds and products are returned). -/
theorem claim1_counterexample :
    SearchService.search [prodPhone] [(0, 0)] [catA0] true .jdictOther
      ['q'] 5 = .ok ⟨some catA0, [candF]⟩ ∧
    some catA0 ≠ (none : Option RetrievalCandidateOut) :=
  ⟨search_eval_cat, by simp⟩

/-- C1, amended: whatever the category branch yields, `search` returns a
non-error result whenever the vector branch does, and the products are
still produced (non-empty when vector matches exist and `max_results ≥
1`).  `selected_category` is `null` exactly when the retriever returned no
candidates; when the retriever returned candidates but the classifier
errored or returned nothing parseable, the code falls back to the *top
retrieved candidate* instead of `null`. -/
theorem claim1_amended (meta : List Product) (pairs : List (ℚ × Int))
    (retrieved : List RetrievalCandidateOut) (apiKeySet : Bool)
    (llm : LLMResp) (query : List Char) (max_results : Nat) (vr : List Cand)
    (hvr : SearchService.search_faiss_index meta pairs = .ok vr) :
    ∃ r, SearchService.search meta pairs retrieved apiKeySet llm query
        max_results = .ok r ∧
      (retrieved = [] → r.selected_category = none) ∧
      (∀ top rest, retrieved = top :: rest → llm = .jdictOther →
        apiKeySet = true → r.selected_category = some top) ∧
      (vr ≠ [] → 1 ≤ max_results → r.products ≠ []) := by
  refine ⟨⟨SearchService._find_best_category retrieved apiKeySet llm,
    (SearchService._fuse_and_rerank_results vr
      (SearchService._find_best_category retrieved apiKeySet llm)
      query).take max_results⟩, ?_, ?_, ?_, ?_⟩
  · unfold SearchService.search
    rw [hvr]
  · intro he
    subst he
    rfl
  · intro top rest he hllm hkey
    subst he
    subst hllm
    subst hkey
    rfl
  · intro hvne hk
    dsimp only
    intro hcontra
    rcases List.take_eq_nil_iff.1 hcontra with h | h
    · omega
    · have hfne : SearchService.fuseSort vr
          (SearchService._find_best_category retrieved apiKeySet llm) query
          ≠ [] := by
        intro hz
        have hlen := SearchService.fuseSort_length vr
          (SearchService._find_best_category retrieved apiKeySet llm) query
        rw [hz] at hlen
        exact hvne (List.length_eq_zero.1 hlen.symm)
      exact SearchService.diversify_ne_nil hfne h

theorem claim1_amended_witness :
    (⟨some catA0, [candF]⟩ : SearchService.SearchResultM).selected_category
        = some catA0 ∧
    (⟨some catA0, [candF]⟩ : SearchService.SearchResultM).products ≠ [] := by
  obtain ⟨r, hok, _, hcons, hne⟩ :=
    claim1_amended [prodPhone] [(0, 0)] [catA0] true .jdictOther ['q'] 5
      [SearchService.mkCand prodPhone 1 1] sfi_eval_single
  have hr : r = ⟨some catA0, [candF]⟩ := by
    have hinj := hok.symm.trans search_eval_cat
    simpa using hinj
  rw [← hr]
  exact ⟨hcons catA0 [] rfl rfl rfl, hne (by simp) (by norm_num)⟩

/-- C3, counterexample: a batch pair with row id 5 against a single-row
metadata list.  The claim says out-of-range ids are skipped and never fail
the request; the code only guards `idx >= 0`, so
`self.product_metadata[5]` raises IndexError and the request fails. -/
theorem claim3_counterexample :
    SearchService.search_faiss_index [prodPhone] [((0 : ℚ), (5 : Int))] =
      .error () := by
  rfl

/-- C3, amended: only *negative* row ids are skipped silently; the raw
vector search fails exactly when the batch holds a non-negative row id at
or beyond the metadata length, and in a successful batch every produced
candidate stems from a pair whose row id is in `[0, total_indexed)` (so
metadata is only read at such positions — ids beyond range abort
instead). -/
theorem claim3_amended (meta : List Product) (pairs : List (ℚ × Int)) :
    (SearchService.search_faiss_index meta pairs = .error () ↔
      ∃ pr ∈ pairs, 0 ≤ pr.2 ∧ meta.length ≤ pr.2.toNat) ∧
    (∀ cs, SearchService.search_faiss_index meta pairs = .ok cs →
      ∀ c ∈ cs, ∃ d idx p, (d, idx) ∈ pairs ∧ 0 ≤ idx ∧
        meta[idx.toNat]? = some p) := by
  constructor
  · exact SearchService.sfi_error_iff
  · intro cs h c hc
    obtain ⟨d, idx, p, hdp, h0, hpm, _, _⟩ := SearchService.sfi_ok_mem h c hc
    exact ⟨d, idx, p, hdp, h0, hpm⟩

theorem claim3_amended_witness :
    SearchService.search_faiss_index [] [((1 : ℚ), (0 : Int))] = .error () :=
  (claim3_amended [] [((1 : ℚ), (0 : Int))]).1.2
    ⟨((1 : ℚ), (0 : Int)), List.mem_cons_self _ _, by norm_num, by norm_num⟩

theorem claim9_witness :
    0 ≤ candF.similarity_score ∧ candF.similarity_score ≤ 1 :=
  (claim9_bounds [prodPhone] [(0, 0)] [] true .jdictOther ['q'] 5
    ⟨none, [candF]⟩ search_eval_none candF (List.mem_cons_self candF [])).1

end RAGinda
